import Mathlib

/-!
Verification development for the event-driven backtest simulation core of
this repository (NautilusTrader backtest engine, as exercised by
docs/tutorials/backtest_fx_bars.ipynb and described by the specification).

The engine implementation itself (BacktestEngine, FillModel, matching
engine, account ledger, simulation modules) is not part of the checked-in
sources here; only the tutorial notebook that drives it is.  Every
definition below is therefore modelled from the specification text, as
noted in its doc comment.
-/

namespace Backtest

/-- Modelled from the spec: order side of an Order (section 3, Order). -/
inductive OrderSide where
  | buy
  | sell
deriving DecidableEq, Repr

/-- Modelled from the spec: order type, market, limit or stop
(section 3, Order). -/
inductive OrderType where
  | market
  | limit
  | stop
deriving DecidableEq, Repr

/-- Modelled from the spec: order status enum
INITIALIZED (here INIT) to SUBMITTED to one of FILLED, PARTIALLY_FILLED,
CANCELED, REJECTED, EXPIRED (section 3, Order). -/
inductive OrderStatus where
  | INIT
  | SUBMITTED
  | FILLED
  | PARTIALLY_FILLED
  | CANCELED
  | REJECTED
  | EXPIRED
deriving DecidableEq, Repr

/-- Modelled from the spec: an Instrument holds identity, price and size
precision, a contract multiplier and margin/commission parameters
(section 3, Instrument).  Prices and amounts are exact rationals, the
shallow rendering of fixed-point decimal arithmetic. -/
structure Instrument where
  symbol : String
  venue : String
  price_precision : Nat
  size_precision : Nat
  multiplier : ℚ
  margin_rate : ℚ
  commission_rate : ℚ
  quote_currency : String
deriving DecidableEq, Repr

/-- Modelled from the spec: an Order with id, instrument id, side, type,
quantity, optional price and trigger, status, and its submission sequence
number used for FIFO tie-breaking (sections 3 and 4.2). -/
structure Order where
  id : Nat
  instrument : String
  venue : String
  side : OrderSide
  otype : OrderType
  quantity : ℚ
  price : Option ℚ
  trigger : Option ℚ
  status : OrderStatus
  submission_seq : Nat
deriving DecidableEq, Repr

/-- Modelled from the spec: a Fill is an immutable record of an execution,
holding order id, timestamp, price, quantity and commission
(section 3, Fill); it also carries the instrument, venue, settlement
currency and the order submission sequence number used to check FIFO
ordering (section 8, FIFO scenario). -/
structure Fill where
  order_id : Nat
  ts : Nat
  instrument : String
  venue : String
  side : OrderSide
  price : ℚ
  quantity : ℚ
  commission : ℚ
  currency : String
  order_seq : Nat
deriving DecidableEq, Repr

/-- Modelled from the spec: a timestamped MarketEvent carrying the affected
instrument and the quote it establishes (section 3, MarketEvent). -/
structure MarketEvent where
  ts : Nat
  instrument : String
  bid : ℚ
  ask : ℚ
  tick : ℚ
deriving DecidableEq, Repr

/-- Modelled from the spec: the per-instrument market state kept by the
Matching Engine, best bid/ask and the price increment (section 4.2). -/
structure MarketState where
  bid : ℚ
  ask : ℚ
  tick : ℚ
deriving DecidableEq, Repr

/-- Market state established by a market event. -/
def MarketEvent.state (e : MarketEvent) : MarketState :=
  { bid := e.bid, ask := e.ask, tick := e.tick }

/-- Modelled from the spec: an explicitly seeded deterministic pseudo-random
generator threaded through the Fill Model (sections 4.3 and 9); a linear
congruential step over the 32-bit range. -/
def lcgNext (s : Nat) : Nat :=
  (1664525 * s + 1013904223) % 4294967296

/-- A draw in the unit interval taken from the generator state. -/
def rngDraw (s : Nat) : ℚ :=
  (lcgNext s : ℚ) / 4294967296

/-- Modelled from the spec: the FillModel with configured probabilities
prob_fill_on_limit, prob_fill_on_stop, prob_slippage and a random seed
(section 4.3 and the tutorial FillModel construction). -/
structure FillModel where
  prob_fill_on_limit : ℚ
  prob_fill_on_stop : ℚ
  prob_slippage : ℚ
  random_seed : Nat
deriving DecidableEq, Repr

/-- The configured values are well-formed probabilities: each lies in the
closed unit interval. -/
def FillModel.probsValid (fm : FillModel) : Prop :=
  0 ≤ fm.prob_fill_on_limit ∧ fm.prob_fill_on_limit ≤ 1 ∧
  0 ≤ fm.prob_fill_on_stop ∧ fm.prob_fill_on_stop ≤ 1 ∧
  0 ≤ fm.prob_slippage ∧ fm.prob_slippage ≤ 1

instance (fm : FillModel) : Decidable fm.probsValid := by
  unfold FillModel.probsValid
  infer_instance

/-- Modelled from the spec: validated construction of a FillModel; the
configured values are probabilities (section 4.3), hence each must lie in
the closed unit interval, and construction fails otherwise. -/
def FillModel.create (pl ps pslip : ℚ) (seed : Nat) :
    Except String FillModel :=
  let fm : FillModel :=
    { prob_fill_on_limit := pl, prob_fill_on_stop := ps,
      prob_slippage := pslip, random_seed := seed }
  if fm.probsValid then Except.ok fm
  else Except.error "probability out of range"

/-- Modelled from the spec: whether the market has crossed the resting
price of a limit or stop order so that it is triggered (section 4.2). -/
def crossed (mkt : MarketState) (o : Order) : Bool :=
  match o.otype with
  | OrderType.market => true
  | OrderType.limit =>
      match o.price with
      | none => false
      | some p =>
          match o.side with
          | OrderSide.buy => decide (mkt.ask ≤ p)
          | OrderSide.sell => decide (p ≤ mkt.bid)
  | OrderType.stop =>
      match o.trigger with
      | none => false
      | some p =>
          match o.side with
          | OrderSide.buy => decide (p ≤ mkt.ask)
          | OrderSide.sell => decide (mkt.bid ≤ p)

/-- Aggressive side price for an order under the current market state. -/
def marketPrice (mkt : MarketState) (o : Order) : ℚ :=
  match o.side with
  | OrderSide.buy => mkt.ask
  | OrderSide.sell => mkt.bid

/-- Build the Fill record for an order executed at the given price. -/
def mkFill (instr : Instrument) (ts : Nat) (o : Order) (px : ℚ) : Fill :=
  { order_id := o.id, ts := ts, instrument := o.instrument,
    venue := o.venue, side := o.side, price := px, quantity := o.quantity,
    commission := instr.commission_rate * px * o.quantity,
    currency := instr.quote_currency, order_seq := o.submission_seq }

/-- Modelled from the spec: the Fill Model decision, a pure function of
(order, current market state, random draw).  Market orders always fill,
with probabilistic slippage of one tick; limit and stop orders, once the
market has crossed their price, fill with probability prob_fill_on_limit
respectively prob_fill_on_stop (section 4.3).  Returns the optional fill
and the advanced generator state. -/
def evalOrder (fm : FillModel) (instr : Instrument) (ts : Nat)
    (mkt : MarketState) (o : Order) (rng : Nat) : Option Fill × Nat :=
  match o.otype with
  | OrderType.market =>
      let slipDraw := rngDraw rng
      let rng2 := lcgNext rng
      let slip : ℚ :=
        if slipDraw < fm.prob_slippage then
          match o.side with
          | OrderSide.buy => mkt.tick
          | OrderSide.sell => -mkt.tick
        else 0
      (some (mkFill instr ts o (marketPrice mkt o + slip)), rng2)
  | OrderType.limit =>
      if crossed mkt o then
        let d := rngDraw rng
        let rng2 := lcgNext rng
        if d < fm.prob_fill_on_limit then
          (some (mkFill instr ts o (marketPrice mkt o)), rng2)
        else (none, rng2)
      else (none, rng)
  | OrderType.stop =>
      if crossed mkt o then
        let d := rngDraw rng
        let rng2 := lcgNext rng
        if d < fm.prob_fill_on_stop then
          (some (mkFill instr ts o (marketPrice mkt o)), rng2)
        else (none, rng2)
      else (none, rng)

/-- Modelled from the spec: a checked fill decision whose error branch
guards against a malformed probability configuration; for a FillModel with
well-formed probabilities the error branch is unreachable. -/
def evalOrderChecked (fm : FillModel) (instr : Instrument) (ts : Nat)
    (mkt : MarketState) (o : Order) (rng : Nat) :
    Except String (Option Fill × Nat) :=
  if fm.probsValid then Except.ok (evalOrder fm instr ts mkt o rng)
  else Except.error "probability out of range"

/-- Modelled from the spec: the Matching Engine evaluates all resting
orders for the instrument against the new market state in submission
(FIFO) order (section 4.2), threading the random generator state through
the fill decisions in that order. -/
def evalOrders (fm : FillModel) (instr : Instrument) (ts : Nat)
    (mkt : MarketState) : List Order → Nat → List Fill × Nat
  | [], rng => ([], rng)
  | o :: rest, rng =>
      let (dec, rng2) := evalOrder fm instr ts mkt o rng
      let (fills, rng3) := evalOrders fm instr ts mkt rest rng2
      match dec with
      | some f => (f :: fills, rng3)
      | none => (fills, rng3)

/-- Modelled from the spec: the Event Clock selects, across all registered
sources, the stream whose head event has the least timestamp, ties broken
by registration order, i.e. by the least stream index (section 4.1).
Returns the registration index together with the selected head event. -/
def pickMin : List (List MarketEvent) → Option (Nat × MarketEvent)
  | [] => none
  | [] :: rest => (pickMin rest).map (fun p => (p.1 + 1, p.2))
  | (e :: _) :: rest =>
      match pickMin rest with
      | none => some (0, e)
      | some (i, e2) =>
          if e2.ts < e.ts then some (i + 1, e2) else some (0, e)

/-- Remove the head of the stream at the given registration index. -/
def popAt : List (List MarketEvent) → Nat → List (List MarketEvent)
  | [], _ => []
  | l :: rest, 0 => l.tail :: rest
  | l :: rest, i + 1 => l :: popAt rest i

/-- Modelled from the spec: advance pops the single next event across all
registered sources by ascending (timestamp, sequence) with ties broken by
registration order then insertion order (section 4.1).  Insertion order is
respected structurally: within a stream only the head, the earliest
inserted remaining event, is ever taken. -/
def advance (streams : List (List MarketEvent)) :
    Option (MarketEvent × List (List MarketEvent)) :=
  (pickMin streams).map (fun p => (p.2, popAt streams p.1))

/-- Total number of pending events across all streams. -/
def totalLen (streams : List (List MarketEvent)) : Nat :=
  (streams.map List.length).sum

/-- Fuel-indexed iteration of advance, emitting events in clock order. -/
def clockRunAux : Nat → List (List MarketEvent) → List MarketEvent
  | 0, _ => []
  | fuel + 1, streams =>
      match advance streams with
      | none => []
      | some (e, rest) => e :: clockRunAux fuel rest

/-- Modelled from the spec: the full emitted event sequence of the Clock,
obtained by iterating advance until all streams are exhausted
(section 4.1). -/
def clockRun (streams : List (List MarketEvent)) : List MarketEvent :=
  clockRunAux (totalLen streams) streams

/-- Every registered source yields events non-decreasing in timestamp
(section 6, data stream interface). -/
def SortedStreams (streams : List (List MarketEvent)) : Prop :=
  ∀ l ∈ streams, List.Chain' (fun a b => a.ts ≤ b.ts) l

/-- Modelled from the spec: a Position aggregates net quantity, average
entry price and realized PnL for one (venue, instrument)
(section 3, Position). -/
structure Position where
  net_qty : ℚ
  avg_px : ℚ
  realized_pnl : ℚ
deriving DecidableEq, Repr

/-- The flat Position, the state before any fill touches the instrument. -/
def Position.flat : Position :=
  { net_qty := 0, avg_px := 0, realized_pnl := 0 }

/-- Modelled from the spec: weighted-average-cost update of a Position by a
signed fill quantity at a fill price; realized PnL is computed on closing
or reducing fills (section 4.4). -/
def Position.applyFill (pos : Position) (px : ℚ) (qty : ℚ) : Position :=
  if pos.net_qty = 0 ∨ (0 < pos.net_qty ∧ 0 < qty) ∨
      (pos.net_qty < 0 ∧ qty < 0) then
    { net_qty := pos.net_qty + qty,
      avg_px :=
        if pos.net_qty + qty = 0 then 0
        else (pos.avg_px * pos.net_qty + px * qty) / (pos.net_qty + qty),
      realized_pnl := pos.realized_pnl }
  else if |qty| ≤ |pos.net_qty| then
    { net_qty := pos.net_qty + qty,
      avg_px := if pos.net_qty + qty = 0 then 0 else pos.avg_px,
      realized_pnl := pos.realized_pnl + (px - pos.avg_px) * (-qty) }
  else
    { net_qty := pos.net_qty + qty,
      avg_px := px,
      realized_pnl := pos.realized_pnl + (px - pos.avg_px) * pos.net_qty }

/-- Modelled from the spec: a per-venue Account holds one balance per
currency plus margin state, locked margin per open position
(sections 3 and 4.4). -/
structure Account where
  balances : String → ℚ
  margins : String → ℚ

/-- Modelled from the spec: the per-venue Account Ledger, balances plus the
Position for each instrument of the venue (section 4.4). -/
structure Ledger where
  account : Account
  positions : String → Position

/-- Signed quantity of a fill, positive for a buy. -/
def Fill.signedQty (f : Fill) : ℚ :=
  match f.side with
  | OrderSide.buy => f.quantity
  | OrderSide.sell => -f.quantity

/-- Balance delta on the settlement currency explained by the fill: the
signed notional plus the commission debit (section 4.4). -/
def Fill.balanceDelta (f : Fill) : ℚ :=
  -(f.price * f.signedQty) - f.commission

/-- Modelled from the spec: apply_fill debits/credits the relevant currency
balances and updates the Position for the (venue, instrument) of the fill,
computing realized PnL using weighted-average-cost basis; margin accounts
track locked margin per open position (section 4.4).  The margin rate used
here is a fixed venue-level parameter folded into the update. -/
def Ledger.apply_fill (led : Ledger) (f : Fill) (margin_rate : ℚ) : Ledger :=
  let newPos := (led.positions f.instrument).applyFill f.price f.signedQty
  { account :=
      { balances := fun c =>
          if c = f.currency then led.account.balances c + f.balanceDelta
          else led.account.balances c,
        margins := fun i =>
          if i = f.instrument then margin_rate * |newPos.net_qty| * f.price
          else led.account.margins i },
    positions := fun i =>
      if i = f.instrument then newPos else led.positions i }

/-- Modelled from the spec: the engine holds one Ledger per venue, owned
exclusively by that venue (sections 4.4 and 5). -/
structure EngineState where
  orders : List Order
  fills : List Fill
  ledgers : String → Ledger
  rng : Nat

/-- Modelled from the spec: apply a fill at the engine level; only the
Ledger of the venue of the fill is touched (sections 4.4 and 5). -/
def EngineState.apply_fill (s : EngineState) (f : Fill) (margin_rate : ℚ) :
    EngineState :=
  { s with
    ledgers := fun v =>
      if v = f.venue then (s.ledgers v).apply_fill f margin_rate
      else s.ledgers v }

/-- Modelled from the spec: the risk engine configuration consumed by the
external risk-check collaborator; the bypass flag skips pre-trade risk
checks (section 6 and the tutorial RiskEngineConfig with bypass=True). -/
structure RiskEngineConfig where
  bypass : Bool
deriving DecidableEq, Repr

/-- Modelled from the spec: the error taxonomy for order submission,
InvalidOrderError for malformed order parameters and
InsufficientBalanceError for a pre-trade check failure (section 7). -/
inductive SubmitError where
  | InvalidOrderError
  | InsufficientBalanceError
deriving DecidableEq, Repr

/-- Kernel-computable rational multiplication, proved below to agree with
the field multiplication of the rationals. -/
def qMul (a b : ℚ) : ℚ := mkRat (a.num * b.num) (a.den * b.den)

/-- Kernel-computable rational comparison, proved below to agree with the
order of the rationals. -/
def qLe (a b : ℚ) : Bool := decide (a.num * (b.den : ℤ) ≤ b.num * (a.den : ℤ))

/-- A rational value respects a decimal precision of p places when its
reduced denominator divides ten to the p, i.e. scaling by ten to the p
yields an integer. -/
def decimalPrecisionOk (x : ℚ) (p : Nat) : Bool :=
  (10 : Nat) ^ p % x.den == 0

/-- Modelled from the spec: order parameter validation against the
declared instrument price and size precision (section 4.2). -/
def precisionValid (instr : Instrument) (o : Order) : Bool :=
  decimalPrecisionOk o.quantity instr.size_precision &&
  (match o.price with
   | none => true
   | some p => decimalPrecisionOk p instr.price_precision) &&
  (match o.trigger with
   | none => true
   | some p => decimalPrecisionOk p instr.price_precision)

/-- Modelled from the spec: the pre-trade margin/cash check, the notional
of the order (at its price, or the current ask for market orders) plus the
margin requirement must be covered by the settlement currency balance
(sections 4.2 and 4.4). -/
def balanceCheck (instr : Instrument) (mkt : MarketState)
    (s : EngineState) (o : Order) : Bool :=
  let px := match o.price with
    | some p => p
    | none => marketPrice mkt o
  let required := qMul instr.margin_rate (qMul px o.quantity)
  qLe required ((s.ledgers o.venue).account.balances instr.quote_currency)

/-- Append the order to the book with status SUBMITTED. -/
def addToBook (s : EngineState) (o : Order) : EngineState :=
  { s with orders := s.orders ++ [{ o with status := OrderStatus.SUBMITTED }] }

/-- Modelled from the spec: submit_order validates order parameters against
instrument precision and venue rules and fails with InvalidOrderError on a
precision violation, the order never entering the book; it fails with
InsufficientBalanceError if the pre-trade margin/cash check fails, unless
the bypass flag of the risk engine configuration is set (sections 4.2, 6
and 7).  Returns the resulting state together with the rejection, if any;
a rejection leaves the state unchanged. -/
def submit_order (cfg : RiskEngineConfig) (instr : Instrument)
    (mkt : MarketState) (s : EngineState) (o : Order) :
    EngineState × Option SubmitError :=
  if ¬ precisionValid instr o then
    (s, some SubmitError.InvalidOrderError)
  else if ¬ cfg.bypass ∧ ¬ balanceCheck instr mkt s o then
    (s, some SubmitError.InsufficientBalanceError)
  else
    (addToBook s o, none)

/-- Modelled from the spec: cancel is an explicit status change to
CANCELED, never a silent drop; no Fill, Position or Account state is
touched (sections 4.2 and 8). -/
def cancel_order (s : EngineState) (oid : Nat) : EngineState :=
  { s with
    orders := s.orders.map (fun o =>
      if o.id = oid then { o with status := OrderStatus.CANCELED } else o) }

/-- Status of the order with the given id in the book, if present. -/
def statusOf (s : EngineState) (oid : Nat) : Option OrderStatus :=
  (s.orders.find? (fun o => o.id = oid)).map Order.status

/-- A fill event is accepted when its quantity is positive and it
references an order resting in the book. -/
def fillValid (s : EngineState) (f : Fill) : Bool :=
  decide (0 < f.quantity) && s.orders.any (fun o => o.id = f.order_id)

/-- Mark the order of the fill as FILLED, or PARTIALLY_FILLED when the
fill quantity is below the order quantity. -/
def updateOrderOnFill (orders : List Order) (f : Fill) : List Order :=
  orders.map (fun o =>
    if o.id = f.order_id then
      { o with status :=
          if f.quantity < o.quantity then OrderStatus.PARTIALLY_FILLED
          else OrderStatus.FILLED }
    else o)

/-- Modelled from the spec: the full commit of a fill, updating the Order
status, the Position and the Account balances via the Ledger and appending
the immutable Fill record (section 4.2). -/
def commitFill (s : EngineState) (f : Fill) (margin_rate : ℚ) : EngineState :=
  let s2 := s.apply_fill f margin_rate
  { s2 with
    orders := updateOrderOnFill s2.orders f,
    fills := s2.fills ++ [f] }

/-- Modelled from the spec: every fill produced is atomic, either it fully
commits, updating Order, Position and Account via the Ledger, or the whole
event is rejected and no state changes (section 4.2). -/
def processFill (s : EngineState) (f : Fill) (margin_rate : ℚ) : EngineState :=
  if fillValid s f then commitFill s f margin_rate else s

/-- Modelled from the spec: the Clock tracks consumed trigger occurrences
for registered Simulation Modules (section 4.5). -/
structure ClockState where
  consumed : List Nat

/-- Modelled from the spec: at the current time, the scheduled trigger
instances that are due and not yet consumed fire; each fired instance is
recorded as consumed (section 4.5).  Returns the fired instances and the
updated clock state. -/
def fireTriggers (sched : List Nat) (c : ClockState) (now : Nat) :
    List Nat × ClockState :=
  let due := sched.filter (fun t => t ≤ now && ! c.consumed.contains t)
  (due, { consumed := c.consumed ++ due })

/-- Modelled from the spec: the run over the event timeline invoking the
module callback once per due trigger instance; returns the list of
invocations, one entry per callback, in order (section 4.5). -/
def runModules (sched : List Nat) : ClockState → List Nat → List Nat
  | _, [] => []
  | c, now :: rest =>
      let (due, c2) := fireTriggers sched c now
      due ++ runModules sched c2 rest

/-- The one-event step of the engine run: evaluate all resting orders for
the event instrument against the new market state, commit the produced
fills and advance the random generator state. -/
def stepEvent (fm : FillModel) (instr : Instrument)
    (st : List Order × Nat × List Fill) (e : MarketEvent) :
    List Order × Nat × List Fill :=
  let (fills, rng2) :=
    evalOrders fm instr e.ts e.state st.1 st.2.1
  (st.1, rng2, st.2.2 ++ fills)

/-- Modelled from the spec: a whole engine run as a function of the
registered inputs, the streams, the resting orders, the instrument and the
fill model with its random seed: the Clock merges the streams and each
emitted event is matched against the book, producing the ordered fill
sequence (sections 2, 4.1 to 4.3 and 8). -/
def runBacktest (streams : List (List MarketEvent)) (book : List Order)
    (instr : Instrument) (fm : FillModel) : List Fill :=
  ((clockRun streams).foldl (stepEvent fm instr)
    (book, fm.random_seed, [])).2.2

/-- A concrete sample instrument, used in witness statements. -/
def sampleInstrument : Instrument :=
  { symbol := "USD/JPY", venue := "SIM", price_precision := 3,
    size_precision := 0, multiplier := 1, margin_rate := mkRat 3 100,
    commission_rate := 0, quote_currency := "JPY" }

/-- A concrete sample fill model, the tutorial configuration. -/
def sampleFillModel : FillModel :=
  { prob_fill_on_limit := mkRat 1 5, prob_fill_on_stop := mkRat 19 20,
    prob_slippage := mkRat 1 2, random_seed := 42 }

/-- A concrete sample market state, used in witness statements. -/
def sampleMarket : MarketState :=
  { bid := 100, ask := 101, tick := mkRat 1 1000 }

/-- A concrete sample market order, used in witness statements. -/
def sampleOrder : Order :=
  { id := 1, instrument := "USD/JPY", venue := "SIM", side := OrderSide.buy,
    otype := OrderType.market, quantity := 1000, price := none,
    trigger := none, status := OrderStatus.INIT, submission_seq := 1 }

/-- A concrete sample limit order crossed by the sample market. -/
def sampleLimitOrder : Order :=
  { sampleOrder with
    id := 2
    otype := OrderType.limit
    price := some 101
    submission_seq := 2 }

/-- A second concrete sample limit order at the same price, submitted
later. -/
def sampleLimitOrder2 : Order :=
  { sampleLimitOrder with id := 3, submission_seq := 3 }

/-- A concrete sample market event, used in witness statements. -/
def sampleEvent : MarketEvent :=
  { ts := 1, instrument := "USD/JPY", bid := 100, ask := 101,
    tick := mkRat 1 1000 }

/-- Two concrete sorted sample streams with a timestamp tie at the head,
used in witness statements. -/
def sampleStreams : List (List MarketEvent) :=
  [[sampleEvent, { sampleEvent with ts := 3 }],
   [sampleEvent, { sampleEvent with ts := 2 }]]

/-- A concrete sample per-venue ledger, used in witness statements. -/
def sampleLedger : Ledger :=
  { account :=
      { balances := fun c => if c = "JPY" then 10000000 else 0,
        margins := fun _ => 0 },
    positions := fun _ => Position.flat }

/-- A concrete sample engine state, used in witness statements. -/
def sampleState : EngineState :=
  { orders := [], fills := [], ledgers := fun _ => sampleLedger, rng := 42 }

/-- A concrete sample fill record, used in witness statements. -/
def sampleFill : Fill :=
  { order_id := 1, ts := 5, instrument := "USD/JPY", venue := "SIM",
    side := OrderSide.buy, price := 101, quantity := 1000, commission := 10,
    currency := "JPY", order_seq := 1 }

theorem qMul_eq_mul (a b : ℚ) : qMul a b = a * b := by
  rw [Rat.mul_def]
  simp [qMul, Rat.normalize_eq_mkRat]

theorem qLe_eq_le (a b : ℚ) : qLe a b = true ↔ a ≤ b := by
  rw [Rat.le_def]
  simp [qLe]

/-- C1: for every pair of engine runs with identical registered inputs
(streams, resting orders, instrument) and an identical fill-model random
seed, the two runs produce identical sequences of Fill records, in order,
with the same prices, quantities and commissions. -/
theorem backtest_run_deterministic
    (streams1 streams2 : List (List MarketEvent))
    (book1 book2 : List Order) (instr1 instr2 : Instrument)
    (fm1 fm2 : FillModel)
    (hs : streams1 = streams2) (hb : book1 = book2)
    (hi : instr1 = instr2) (hm : fm1 = fm2) :
    runBacktest streams1 book1 instr1 fm1 =
      runBacktest streams2 book2 instr2 fm2 := by
  subst hs
  subst hb
  subst hi
  subst hm
  rfl

/-- Witness for C1 at a concrete input. -/
theorem backtest_run_deterministic_witness :
    runBacktest [[sampleEvent]] [sampleOrder] sampleInstrument
        sampleFillModel =
      runBacktest [[sampleEvent]] [sampleOrder] sampleInstrument
        sampleFillModel :=
  backtest_run_deterministic _ _ _ _ _ _ _ _ rfl rfl rfl rfl

/-- C3: a MARKET order evaluated by the Fill Model produces exactly one
fill outcome with probability one, and the prob_fill_on_limit parameter is
never consulted for it; a LIMIT order whose price is crossed fills exactly
when the draw is below prob_fill_on_limit, and a STOP order whose trigger
is crossed fills exactly when the draw is below prob_fill_on_stop. -/
theorem evalOrder_market_always_fills (fm : FillModel) (instr : Instrument)
    (ts : Nat) (mkt : MarketState) (o : Order) (rng : Nat) :
    (o.otype = OrderType.market →
      (∃ f, (evalOrder fm instr ts mkt o rng).1 = some f) ∧
      (∀ p, evalOrder { fm with prob_fill_on_limit := p } instr ts mkt o rng =
        evalOrder fm instr ts mkt o rng)) ∧
    (o.otype = OrderType.limit → crossed mkt o = true →
      ((evalOrder fm instr ts mkt o rng).1.isSome = true ↔
        rngDraw rng < fm.prob_fill_on_limit)) ∧
    (o.otype = OrderType.stop → crossed mkt o = true →
      ((evalOrder fm instr ts mkt o rng).1.isSome = true ↔
        rngDraw rng < fm.prob_fill_on_stop)) := by
  refine ⟨fun h => ⟨?_, fun p => ?_⟩, fun h hc => ?_, fun h hc => ?_⟩
  · simp only [evalOrder, h]
    exact ⟨_, rfl⟩
  · simp only [evalOrder, h]
  · simp only [evalOrder, h, hc, if_true]
    by_cases hd : rngDraw rng < fm.prob_fill_on_limit <;> simp [hd]
  · simp only [evalOrder, h, hc, if_true]
    by_cases hd : rngDraw rng < fm.prob_fill_on_stop <;> simp [hd]

/-- Witness for C3 at concrete market and limit orders. -/
theorem evalOrder_market_always_fills_witness :
    ((∃ f, (evalOrder sampleFillModel sampleInstrument 0 sampleMarket
        sampleOrder 7).1 = some f) ∧
      (∀ p, evalOrder { sampleFillModel with prob_fill_on_limit := p }
          sampleInstrument 0 sampleMarket sampleOrder 7 =
        evalOrder sampleFillModel sampleInstrument 0 sampleMarket
          sampleOrder 7)) ∧
    ((evalOrder sampleFillModel sampleInstrument 0 sampleMarket
        sampleLimitOrder 7).1.isSome = true ↔
      rngDraw 7 < sampleFillModel.prob_fill_on_limit) := by
  have h1 := evalOrder_market_always_fills sampleFillModel sampleInstrument 0
    sampleMarket sampleOrder 7
  have h2 := evalOrder_market_always_fills sampleFillModel sampleInstrument 0
    sampleMarket sampleLimitOrder 7
  exact ⟨h1.1 (by decide), h2.2.1 (by decide) (by decide)⟩

/-- C4: apply_fill changes only the currency balance, the margin state and
the Position of the (venue, instrument) of the fill, by the amounts the
fill itself explains; every other venue ledger, currency balance, position
and margin line, and the order and fill records, are unchanged. -/
theorem apply_fill_frame (s : EngineState) (f : Fill) (mr : ℚ) :
    (∀ v, v ≠ f.venue → (s.apply_fill f mr).ledgers v = s.ledgers v) ∧
    (∀ c, c ≠ f.currency →
      ((s.apply_fill f mr).ledgers f.venue).account.balances c =
        (s.ledgers f.venue).account.balances c) ∧
    (∀ i, i ≠ f.instrument →
      ((s.apply_fill f mr).ledgers f.venue).positions i =
        (s.ledgers f.venue).positions i ∧
      ((s.apply_fill f mr).ledgers f.venue).account.margins i =
        (s.ledgers f.venue).account.margins i) ∧
    ((s.apply_fill f mr).ledgers f.venue).account.balances f.currency =
      (s.ledgers f.venue).account.balances f.currency + f.balanceDelta ∧
    ((s.apply_fill f mr).ledgers f.venue).positions f.instrument =
      ((s.ledgers f.venue).positions f.instrument).applyFill f.price
        f.signedQty ∧
    (s.apply_fill f mr).orders = s.orders ∧
    (s.apply_fill f mr).fills = s.fills := by
  refine ⟨fun v hv => ?_, fun c hc => ?_, fun i hi => ⟨?_, ?_⟩, ?_, ?_, rfl,
    rfl⟩
  · simp [EngineState.apply_fill, Ledger.apply_fill, hv]
  · simp [EngineState.apply_fill, Ledger.apply_fill, hc]
  · simp [EngineState.apply_fill, Ledger.apply_fill, hi]
  · simp [EngineState.apply_fill, Ledger.apply_fill, hi]
  · simp [EngineState.apply_fill, Ledger.apply_fill]
  · simp [EngineState.apply_fill, Ledger.apply_fill]

/-- Witness for C4 at a concrete state and fill. -/
theorem apply_fill_frame_witness :
    (sampleState.apply_fill sampleFill (mkRat 3 100)).ledgers "OTHER" =
      sampleState.ledgers "OTHER" ∧
    ((sampleState.apply_fill sampleFill (mkRat 3 100)).ledgers
        "SIM").account.balances "USD" =
      ((sampleState.ledgers "SIM").account.balances "USD") ∧
    ((sampleState.apply_fill sampleFill (mkRat 3 100)).ledgers
        "SIM").positions "EUR/USD" =
      (sampleState.ledgers "SIM").positions "EUR/USD" := by
  have h := apply_fill_frame sampleState sampleFill (mkRat 3 100)
  exact ⟨h.1 "OTHER" (by decide), h.2.1 "USD" (by decide),
    (h.2.2.1 "EUR/USD" (by decide)).1⟩

/-- C6: every fill application is atomic, either the whole state is left
unchanged (the event is rejected) or the Order status, the Position and
Account via the Ledger, and the appended Fill record are all committed
together; no partial application exists. -/
theorem processFill_atomic (s : EngineState) (f : Fill) (mr : ℚ) :
    processFill s f mr = s ∨
    (processFill s f mr = commitFill s f mr ∧
      (commitFill s f mr).orders = updateOrderOnFill s.orders f ∧
      (commitFill s f mr).fills = s.fills ++ [f] ∧
      (commitFill s f mr).ledgers = (s.apply_fill f mr).ledgers) := by
  by_cases h : fillValid s f
  · exact Or.inr ⟨by simp [processFill, h], rfl, rfl, rfl⟩
  · exact Or.inl (by simp [processFill, h])

/-- C7: submit_order rejects an order violating the instrument precision
with InvalidOrderError, leaving the book unchanged; it rejects an order
failing the pre-trade balance check with InsufficientBalanceError unless
the bypass flag of the risk engine configuration is set, in which case the
balance check is skipped and the order is accepted into the book. -/
theorem submit_order_checks (cfg : RiskEngineConfig) (instr : Instrument)
    (mkt : MarketState) (s : EngineState) (o : Order) :
    (precisionValid instr o = false →
      submit_order cfg instr mkt s o =
        (s, some SubmitError.InvalidOrderError)) ∧
    (precisionValid instr o = true → cfg.bypass = false →
      balanceCheck instr mkt s o = false →
      submit_order cfg instr mkt s o =
        (s, some SubmitError.InsufficientBalanceError)) ∧
    (precisionValid instr o = true → cfg.bypass = true →
      submit_order cfg instr mkt s o = (addToBook s o, none)) ∧
    (precisionValid instr o = true → balanceCheck instr mkt s o = true →
      submit_order cfg instr mkt s o = (addToBook s o, none)) := by
  refine ⟨fun h1 => ?_, fun h1 h2 h3 => ?_, fun h1 h2 => ?_,
    fun h1 h2 => ?_⟩ <;>
    simp [submit_order, h1]
  · simp [h2, h3]
  · simp [h2]
  · simp [h2]

/-- Witness for C7: a precision violation, a balance failure, and the same
balance failure accepted under bypass, at concrete inputs. -/
theorem submit_order_checks_witness :
    submit_order { bypass := false } sampleInstrument sampleMarket
        sampleState { sampleOrder with quantity := mkRat 1 3 } =
      (sampleState, some SubmitError.InvalidOrderError) ∧
    submit_order { bypass := false } sampleInstrument sampleMarket
        sampleState { sampleOrder with quantity := 1000000000 } =
      (sampleState, some SubmitError.InsufficientBalanceError) ∧
    submit_order { bypass := true } sampleInstrument sampleMarket
        sampleState { sampleOrder with quantity := 1000000000 } =
      (addToBook sampleState { sampleOrder with quantity := 1000000000 },
        none) := by
  have h1 := submit_order_checks { bypass := false } sampleInstrument
    sampleMarket sampleState { sampleOrder with quantity := mkRat 1 3 }
  have h2 := submit_order_checks { bypass := false } sampleInstrument
    sampleMarket sampleState { sampleOrder with quantity := 1000000000 }
  have h3 := submit_order_checks { bypass := true } sampleInstrument
    sampleMarket sampleState { sampleOrder with quantity := 1000000000 }
  exact ⟨h1.1 (by decide), h2.2.1 (by decide) rfl (by decide),
    h3.2.2.1 (by decide) rfl⟩

/-- C10: the FillModel constructor accepts the three probabilities exactly
when each lies in the closed unit interval; a constructed FillModel has
well-formed probabilities and the error branch of the checked fill
decision is unreachable for it. -/
theorem fillModel_create_valid (pl ps pslip : ℚ) (seed : Nat) :
    ((∃ fm, FillModel.create pl ps pslip seed = Except.ok fm) ↔
      (0 ≤ pl ∧ pl ≤ 1 ∧ 0 ≤ ps ∧ ps ≤ 1 ∧ 0 ≤ pslip ∧ pslip ≤ 1)) ∧
    (∀ fm, FillModel.create pl ps pslip seed = Except.ok fm →
      fm.probsValid ∧ fm.prob_fill_on_limit = pl ∧
      fm.prob_fill_on_stop = ps ∧ fm.prob_slippage = pslip ∧
      fm.random_seed = seed ∧
      (∀ instr ts mkt o rng, evalOrderChecked fm instr ts mkt o rng =
        Except.ok (evalOrder fm instr ts mkt o rng))) := by
  have hvalid : FillModel.probsValid ⟨pl, ps, pslip, seed⟩ ↔
      (0 ≤ pl ∧ pl ≤ 1 ∧ 0 ≤ ps ∧ ps ≤ 1 ∧ 0 ≤ pslip ∧ pslip ≤ 1) :=
    Iff.rfl
  constructor
  · constructor
    · rintro ⟨fm, hfm⟩
      by_cases h : FillModel.probsValid ⟨pl, ps, pslip, seed⟩
      · exact hvalid.mp h
      · simp [FillModel.create, h] at hfm
    · intro h
      exact ⟨⟨pl, ps, pslip, seed⟩, by simp [FillModel.create, hvalid.mpr h]⟩
  · intro fm hfm
    by_cases h : FillModel.probsValid ⟨pl, ps, pslip, seed⟩
    · simp only [FillModel.create, if_pos h, Except.ok.injEq] at hfm
      subst hfm
      exact ⟨h, rfl, rfl, rfl, rfl, fun instr ts mkt o rng => by
        simp [evalOrderChecked, h]⟩
    · simp [FillModel.create, h] at hfm

/-- Witness for C10: the tutorial probabilities are accepted and give a
well-formed FillModel. -/
theorem fillModel_create_valid_witness :
    FillModel.create (mkRat 1 5) (mkRat 19 20) (mkRat 1 2) 42 =
      Except.ok sampleFillModel ∧
    sampleFillModel.probsValid := by
  have hc : FillModel.create (mkRat 1 5) (mkRat 19 20) (mkRat 1 2) 42 =
      Except.ok sampleFillModel := rfl
  have h := (fillModel_create_valid (mkRat 1 5) (mkRat 19 20) (mkRat 1 2)
    42).2 sampleFillModel hc
  exact ⟨hc, h.1⟩

theorem find?_cancel_append (orders : List Order) (o : Order)
    (hid : ∀ o2 ∈ orders, o2.id ≠ o.id) (oS : Order) (hS : oS.id = o.id) :
    ((orders ++ [oS]).map (fun x =>
        if x.id = o.id then { x with status := OrderStatus.CANCELED }
        else x)).find? (fun x => x.id = o.id) =
      some { oS with status := OrderStatus.CANCELED } := by
  induction orders with
  | nil => simp [hS]
  | cons a rest ih =>
      have ha : a.id ≠ o.id := hid a (by simp)
      simp only [List.cons_append, List.map_cons]
      rw [List.find?_cons_of_neg]
      · exact ih (fun o2 h => hid o2 (List.mem_cons_of_mem _ h))
      · simp [ha]

/-- C8: an order submitted and then canceled before any market event
touches its instrument ends with status CANCELED, and no Fill record and
no Position or Account state differs from the state before submission. -/
theorem submit_then_cancel (cfg : RiskEngineConfig) (instr : Instrument)
    (mkt : MarketState) (s : EngineState) (o : Order)
    (hid : ∀ o2 ∈ s.orders, o2.id ≠ o.id)
    (hok : (submit_order cfg instr mkt s o).2 = none) :
    statusOf (cancel_order (submit_order cfg instr mkt s o).1 o.id) o.id =
      some OrderStatus.CANCELED ∧
    (cancel_order (submit_order cfg instr mkt s o).1 o.id).fills =
      s.fills ∧
    (cancel_order (submit_order cfg instr mkt s o).1 o.id).ledgers =
      s.ledgers := by
  by_cases h1 : precisionValid instr o = true
  · by_cases h2 : ¬ cfg.bypass = true ∧ ¬ balanceCheck instr mkt s o = true
    · exfalso
      simp [submit_order, h1, h2] at hok
    · have hsub : submit_order cfg instr mkt s o = (addToBook s o, none) := by
        simp [submit_order, h1, h2]
        intro hb
        rcases not_and_or.mp h2 with h | h
        · rw [hb] at h
          simp at h
        · simpa using h
      rw [hsub]
      refine ⟨?_, rfl, rfl⟩
      simp only [cancel_order, addToBook, statusOf]
      rw [find?_cancel_append s.orders o hid
        { o with status := OrderStatus.SUBMITTED } rfl]
      rfl
  · exfalso
    simp [submit_order, h1] at hok

/-- Witness for C8 at a concrete accepted order on an empty book. -/
theorem submit_then_cancel_witness :
    statusOf (cancel_order (submit_order { bypass := true } sampleInstrument
        sampleMarket sampleState sampleOrder).1 sampleOrder.id)
        sampleOrder.id = some OrderStatus.CANCELED ∧
    (cancel_order (submit_order { bypass := true } sampleInstrument
        sampleMarket sampleState sampleOrder).1 sampleOrder.id).fills =
      sampleState.fills ∧
    (cancel_order (submit_order { bypass := true } sampleInstrument
        sampleMarket sampleState sampleOrder).1 sampleOrder.id).ledgers =
      sampleState.ledgers := by
  refine submit_then_cancel { bypass := true } sampleInstrument sampleMarket
    sampleState sampleOrder ?_ (by decide)
  intro o2 h
  simp [sampleState] at h

theorem runModules_count_aux (sched : List Nat) (hnd : sched.Nodup)
    (t : Nat) :
    ∀ (times : List Nat) (c : ClockState),
      (t ∈ c.consumed → (runModules sched c times).count t = 0) ∧
      ((runModules sched c times).count t ≤ 1) ∧
      (t ∉ c.consumed → t ∈ sched → (∃ n ∈ times, t ≤ n) →
        (runModules sched c times).count t = 1) := by
  intro times
  induction times with
  | nil =>
      intro c
      refine ⟨fun _ => rfl, by simp [runModules], fun _ _ h => ?_⟩
      simp at h
  | cons now rest ih =>
      intro c
      have hrun : runModules sched c (now :: rest) =
          (sched.filter (fun x => x ≤ now && ! c.consumed.contains x)) ++
            runModules sched
              ⟨c.consumed ++
                sched.filter (fun x => x ≤ now && ! c.consumed.contains x)⟩
              rest := rfl
      set due := sched.filter (fun x => x ≤ now && ! c.consumed.contains x)
        with hdue
      have hcount : (runModules sched c (now :: rest)).count t =
          due.count t + (runModules sched ⟨c.consumed ++ due⟩ rest).count t := by
        rw [hrun, List.count_append]
      have hnot_due_of_consumed : t ∈ c.consumed → t ∉ due := by
        intro hc hmem
        rw [hdue, List.mem_filter] at hmem
        simp at hmem
        exact hmem.2.2 hc
      have hdue_count_le : due.count t ≤ 1 :=
        le_trans (List.Sublist.count_le (List.filter_sublist sched) t)
          ((List.nodup_iff_count_le_one.mp hnd) t)
      refine ⟨fun hc => ?_, ?_, fun hc hs hex => ?_⟩
      · rw [hcount]
        have h0 : due.count t = 0 :=
          List.count_eq_zero.mpr (hnot_due_of_consumed hc)
        have h1 : t ∈ (⟨c.consumed ++ due⟩ : ClockState).consumed :=
          List.mem_append_left _ hc
        rw [h0, (ih ⟨c.consumed ++ due⟩).1 h1]
      · rw [hcount]
        by_cases hc : t ∈ c.consumed
        · have h0 : due.count t = 0 :=
            List.count_eq_zero.mpr (hnot_due_of_consumed hc)
          rw [h0, (ih ⟨c.consumed ++ due⟩).1 (List.mem_append_left _ hc)]
          exact Nat.zero_le 1
        · by_cases hd : t ∈ due
          · have h1 : t ∈ (⟨c.consumed ++ due⟩ : ClockState).consumed :=
              List.mem_append_right _ hd
            rw [(ih ⟨c.consumed ++ due⟩).1 h1]
            simpa using hdue_count_le
          · have h0 : due.count t = 0 := List.count_eq_zero.mpr hd
            rw [h0]
            simpa using (ih ⟨c.consumed ++ due⟩).2.1
      · rw [hcount]
        by_cases hnow : t ≤ now
        · have hd : t ∈ due := by
            rw [hdue, List.mem_filter]
            refine ⟨hs, ?_⟩
            simp [hnow]
            exact hc
          have hpos : due.count t ≠ 0 := fun h0 =>
            (List.count_eq_zero.mp h0) hd
          have h1 : due.count t = 1 :=
            Nat.le_antisymm hdue_count_le (Nat.one_le_iff_ne_zero.mpr hpos)
          rw [h1, (ih ⟨c.consumed ++ due⟩).1 (List.mem_append_right _ hd)]
        · have hd : t ∉ due := by
            intro hmem
            rw [hdue, List.mem_filter] at hmem
            simp at hmem
            exact hnow hmem.2.1
          have h0 : due.count t = 0 := List.count_eq_zero.mpr hd
          have h2 : t ∉ (⟨c.consumed ++ due⟩ : ClockState).consumed := by
            intro hmem
            rcases List.mem_append.mp hmem with h | h
            · exact hc h
            · exact hd h
          have hex2 : ∃ n ∈ rest, t ≤ n := by
            rcases hex with ⟨n, hn, hle⟩
            rcases List.mem_cons.mp hn with rfl | hn2
            · exact absurd hle hnow
            · exact ⟨n, hn2, hle⟩
          rw [h0, (ih ⟨c.consumed ++ due⟩).2.2 h2 hs hex2]

/-- C9: over a whole run the Clock invokes a module callback at most once
per scheduled trigger instance, and exactly once for each scheduled
instance reached by the timeline, however many market events fall in the
same period; the invocation list models the ledger adjustments the module
applies, one per callback. -/
theorem modules_fire_once (sched : List Nat) (times : List Nat) (t : Nat)
    (hnd : sched.Nodup) :
    (runModules sched ⟨[]⟩ times).count t ≤ 1 ∧
    (t ∈ sched → (∃ n ∈ times, t ≤ n) →
      (runModules sched ⟨[]⟩ times).count t = 1) := by
  have h := runModules_count_aux sched hnd t times ⟨[]⟩
  exact ⟨h.2.1, fun hs hex => h.2.2 (by simp) hs hex⟩

/-- Witness for C9: a daily boundary fired once although several events
fall on the same day. -/
theorem modules_fire_once_witness :
    (runModules [10, 20] ⟨[]⟩ [5, 10, 11, 12, 25]).count 10 ≤ 1 ∧
    (runModules [10, 20] ⟨[]⟩ [5, 10, 11, 12, 25]).count 10 = 1 := by
  have h := modules_fire_once [10, 20] [5, 10, 11, 12, 25] 10 (by decide)
  exact ⟨h.1, h.2 (by decide) (by decide)⟩

theorem evalOrder_seq_eq (fm : FillModel) (instr : Instrument) (ts : Nat)
    (mkt : MarketState) (o : Order) (rng : Nat) (f : Fill)
    (h : (evalOrder fm instr ts mkt o rng).1 = some f) :
    f.order_seq = o.submission_seq := by
  cases ho : o.otype <;> simp only [evalOrder, ho] at h
  · simp only [Option.some.injEq] at h
    subst h
    rfl
  · split_ifs at h
    simp only [Option.some.injEq] at h
    subst h
    rfl
  · split_ifs at h
    simp only [Option.some.injEq] at h
    subst h
    rfl

theorem evalOrders_fills_sublist (fm : FillModel) (instr : Instrument)
    (ts : Nat) (mkt : MarketState) :
    ∀ (orders : List Order) (rng : Nat),
      ((evalOrders fm instr ts mkt orders rng).1.map
          Fill.order_seq).Sublist
        (orders.map Order.submission_seq) := by
  intro orders
  induction orders with
  | nil =>
      intro rng
      simp [evalOrders]
  | cons o rest ih =>
      intro rng
      rcases hdec : evalOrder fm instr ts mkt o rng with ⟨dec, rng2⟩
      cases dec with
      | none =>
          simp only [evalOrders, hdec, List.map_cons]
          exact (ih rng2).cons _
      | some f =>
          have hseq : f.order_seq = o.submission_seq :=
            evalOrder_seq_eq fm instr ts mkt o rng f (by rw [hdec])
          simp only [evalOrders, hdec, List.map_cons, hseq]
          exact (ih rng2).cons₂ _

/-- C5: resting orders are evaluated against a new market state in
submission (FIFO) order; the submission sequence numbers of the produced
fills form an order-preserving subsequence of the book, hence fills of
simultaneously eligible orders come out in submission order. -/
theorem matching_fifo (fm : FillModel) (instr : Instrument) (ts : Nat)
    (mkt : MarketState) (orders : List Order) (rng : Nat)
    (hfifo : List.Chain'
      (fun a b => a.submission_seq ≤ b.submission_seq) orders) :
    ((evalOrders fm instr ts mkt orders rng).1.map
        Fill.order_seq).Sublist (orders.map Order.submission_seq) ∧
    List.Chain' (fun a b => a ≤ b)
      ((evalOrders fm instr ts mkt orders rng).1.map Fill.order_seq) := by
  have hsub := evalOrders_fills_sublist fm instr ts mkt orders rng
  refine ⟨hsub, ?_⟩
  have hchain : List.Chain' (fun a b => a ≤ b)
      (orders.map Order.submission_seq) :=
    List.chain'_map_of_chain' Order.submission_seq (fun _ _ h => h) hfifo
  have hpair : List.Pairwise (fun a b => a ≤ b)
      (orders.map Order.submission_seq) :=
    List.chain'_iff_pairwise.mp hchain
  exact List.chain'_iff_pairwise.mpr (hpair.sublist hsub)

/-- Witness for C5: two limit orders at the same price on the book in
submission order. -/
theorem matching_fifo_witness :
    ((evalOrders sampleFillModel sampleInstrument 0 sampleMarket
        [sampleLimitOrder, sampleLimitOrder2] 7).1.map
        Fill.order_seq).Sublist
      ([sampleLimitOrder, sampleLimitOrder2].map Order.submission_seq) ∧
    List.Chain' (fun a b => a ≤ b)
      ((evalOrders sampleFillModel sampleInstrument 0 sampleMarket
        [sampleLimitOrder, sampleLimitOrder2] 7).1.map Fill.order_seq) :=
  matching_fifo sampleFillModel sampleInstrument 0 sampleMarket
    [sampleLimitOrder, sampleLimitOrder2] 7
    (List.chain'_pair.mpr (by decide))

theorem pickMin_none (streams : List (List MarketEvent))
    (h : pickMin streams = none) : ∀ l ∈ streams, l = [] := by
  induction streams with
  | nil =>
      intro l hl
      simp at hl
  | cons a rest ih =>
      intro l hl
      cases a with
      | nil =>
          simp only [pickMin] at h
          have hrest : pickMin rest = none := by
            rcases hq : pickMin rest with _ | p
            · rfl
            · rw [hq] at h
              simp at h
          rcases List.mem_cons.mp hl with rfl | hl2
          · rfl
          · exact ih hrest l hl2
      | cons e tl =>
          simp only [pickMin] at h
          rcases hq : pickMin rest with _ | ⟨j, e2⟩
          · rw [hq] at h
            simp at h
          · simp only [hq] at h
            split_ifs at h

theorem pickMin_mem (streams : List (List MarketEvent)) :
    ∀ i e, pickMin streams = some (i, e) →
      ∃ l, streams.get? i = some l ∧ l.head? = some e := by
  induction streams with
  | nil =>
      intro i e h
      simp [pickMin] at h
  | cons a rest ih =>
      intro i e h
      cases a with
      | nil =>
          simp only [pickMin] at h
          rcases hq : pickMin rest with _ | ⟨j, e2⟩
          · rw [hq] at h
            simp at h
          · rw [hq] at h
            simp only [Option.map_some', Option.some.injEq,
              Prod.mk.injEq] at h
            obtain ⟨h1, h2⟩ := h
            subst h1
            subst h2
            simpa [List.get?] using ih j e2 hq
      | cons e0 tl =>
          simp only [pickMin] at h
          rcases hq : pickMin rest with _ | ⟨j, e2⟩
          · rw [hq] at h
            simp only [Option.some.injEq, Prod.mk.injEq] at h
            obtain ⟨h1, h2⟩ := h
            subst h1
            subst h2
            exact ⟨e0 :: tl, rfl, rfl⟩
          · simp only [hq] at h
            split_ifs at h with hlt
            · simp only [Option.some.injEq, Prod.mk.injEq] at h
              obtain ⟨h1, h2⟩ := h
              subst h1
              subst h2
              simpa [List.get?] using ih j e2 hq
            · simp only [Option.some.injEq, Prod.mk.injEq] at h
              obtain ⟨h1, h2⟩ := h
              subst h1
              subst h2
              exact ⟨e0 :: tl, rfl, rfl⟩

theorem pickMin_le (streams : List (List MarketEvent)) :
    ∀ i e, pickMin streams = some (i, e) →
      ∀ j l e2, streams.get? j = some l → l.head? = some e2 →
        e.ts ≤ e2.ts := by
  induction streams with
  | nil =>
      intro i e h
      simp [pickMin] at h
  | cons a rest ih =>
      intro i e h j l e2 hj hh
      cases a with
      | nil =>
          simp only [pickMin] at h
          rcases hq : pickMin rest with _ | ⟨j0, e0⟩
          · rw [hq] at h
            simp at h
          · rw [hq] at h
            simp only [Option.map_some', Option.some.injEq,
              Prod.mk.injEq] at h
            obtain ⟨h1, h2⟩ := h
            subst h2
            cases j with
            | zero =>
                simp only [List.get?, Option.some.injEq] at hj
                subst hj
                simp at hh
            | succ j2 =>
                simp only [List.get?] at hj
                exact ih j0 e0 hq j2 l e2 hj hh
      | cons e0 tl =>
          simp only [pickMin] at h
          rcases hq : pickMin rest with _ | ⟨j0, e1⟩
          · rw [hq] at h
            simp only [Option.some.injEq, Prod.mk.injEq] at h
            obtain ⟨h1, h2⟩ := h
            subst h2
            cases j with
            | zero =>
                simp only [List.get?, Option.some.injEq] at hj
                subst hj
                simp only [List.head?, Option.some.injEq] at hh
                subst hh
                exact le_refl _
            | succ j2 =>
                simp only [List.get?] at hj
                have hl : l = [] :=
                  pickMin_none rest hq l (List.get?_mem hj)
                subst hl
                simp at hh
          · simp only [hq] at h
            split_ifs at h with hlt
            · simp only [Option.some.injEq, Prod.mk.injEq] at h
              obtain ⟨h1, h2⟩ := h
              subst h2
              cases j with
              | zero =>
                  simp only [List.get?, Option.some.injEq] at hj
                  subst hj
                  simp only [List.head?, Option.some.injEq] at hh
                  subst hh
                  exact le_of_lt hlt
              | succ j2 =>
                  simp only [List.get?] at hj
                  exact ih j0 e1 hq j2 l e2 hj hh
            · simp only [Option.some.injEq, Prod.mk.injEq] at h
              obtain ⟨h1, h2⟩ := h
              subst h2
              cases j with
              | zero =>
                  simp only [List.get?, Option.some.injEq] at hj
                  subst hj
                  simp only [List.head?, Option.some.injEq] at hh
                  subst hh
                  exact le_refl _
              | succ j2 =>
                  simp only [List.get?] at hj
                  exact le_trans (not_lt.mp hlt)
                    (ih j0 e1 hq j2 l e2 hj hh)

theorem pickMin_tie (streams : List (List MarketEvent)) :
    ∀ i e, pickMin streams = some (i, e) →
      ∀ j l e2, j < i → streams.get? j = some l → l.head? = some e2 →
        e.ts < e2.ts := by
  induction streams with
  | nil =>
      intro i e h
      simp [pickMin] at h
  | cons a rest ih =>
      intro i e h j l e2 hji hj hh
      cases a with
      | nil =>
          simp only [pickMin] at h
          rcases hq : pickMin rest with _ | ⟨j0, e0⟩
          · rw [hq] at h
            simp at h
          · rw [hq] at h
            simp only [Option.map_some', Option.some.injEq,
              Prod.mk.injEq] at h
            obtain ⟨h1, h2⟩ := h
            subst h2
            subst h1
            cases j with
            | zero =>
                simp only [List.get?, Option.some.injEq] at hj
                subst hj
                simp at hh
            | succ j2 =>
                simp only [List.get?] at hj
                exact ih j0 e0 hq j2 l e2 (Nat.lt_of_succ_lt_succ hji) hj hh
      | cons e0 tl =>
          simp only [pickMin] at h
          rcases hq : pickMin rest with _ | ⟨j0, e1⟩
          · rw [hq] at h
            simp only [Option.some.injEq, Prod.mk.injEq] at h
            obtain ⟨h1, h2⟩ := h
            subst h1
            exact absurd hji (Nat.not_lt_zero j)
          · simp only [hq] at h
            split_ifs at h with hlt
            · simp only [Option.some.injEq, Prod.mk.injEq] at h
              obtain ⟨h1, h2⟩ := h
              subst h2
              subst h1
              cases j with
              | zero =>
                  simp only [List.get?, Option.some.injEq] at hj
                  subst hj
                  simp only [List.head?, Option.some.injEq] at hh
                  subst hh
                  exact hlt
              | succ j2 =>
                  simp only [List.get?] at hj
                  exact ih j0 e1 hq j2 l e2 (Nat.lt_of_succ_lt_succ hji)
                    hj hh
            · simp only [Option.some.injEq, Prod.mk.injEq] at h
              obtain ⟨h1, h2⟩ := h
              subst h1
              exact absurd hji (Nat.not_lt_zero j)

theorem popAt_get?_ne :
    ∀ (streams : List (List MarketEvent)) (i j : Nat), i ≠ j →
      (popAt streams i).get? j = streams.get? j := by
  intro streams
  induction streams with
  | nil =>
      intro i j _
      simp [popAt]
  | cons a rest ih =>
      intro i j hij
      cases i with
      | zero =>
          cases j with
          | zero => exact absurd rfl hij
          | succ j2 => simp [popAt, List.get?]
      | succ i2 =>
          cases j with
          | zero => simp [popAt, List.get?]
          | succ j2 =>
              simp only [popAt, List.get?]
              exact ih i2 j2 (fun hh => hij (by rw [hh]))

theorem popAt_get?_eq :
    ∀ (streams : List (List MarketEvent)) (i : Nat)
      (l : List MarketEvent), streams.get? i = some l →
      (popAt streams i).get? i = some l.tail := by
  intro streams
  induction streams with
  | nil =>
      intro i l h
      simp at h
  | cons a rest ih =>
      intro i l h
      cases i with
      | zero =>
          simp only [List.get?, Option.some.injEq] at h
          subst h
          simp [popAt, List.get?]
      | succ i2 =>
          simp only [List.get?] at h
          simp only [popAt, List.get?]
          exact ih i2 l h

theorem popAt_sorted (streams : List (List MarketEvent)) (i : Nat)
    (hs : SortedStreams streams) : SortedStreams (popAt streams i) := by
  induction streams generalizing i with
  | nil => simpa [popAt] using hs
  | cons a rest ih =>
      cases i with
      | zero =>
          intro l hl
          rcases List.mem_cons.mp hl with rfl | hl2
          · exact List.Chain'.tail (hs a (by simp))
          · exact hs l (List.mem_cons_of_mem _ hl2)
      | succ i2 =>
          intro l hl
          rcases List.mem_cons.mp hl with rfl | hl2
          · exact hs l (by simp)
          · exact ih i2
              (fun l2 hl2b => hs l2 (List.mem_cons_of_mem _ hl2b)) l hl2

theorem chain'_head_tail {l : List MarketEvent} {e y : MarketEvent}
    (hc : List.Chain' (fun a b => a.ts ≤ b.ts) l)
    (h1 : l.head? = some e) (h2 : l.tail.head? = some y) :
    e.ts ≤ y.ts := by
  cases l with
  | nil => simp at h1
  | cons a t =>
      cases t with
      | nil => simp at h2
      | cons b t2 =>
          simp only [List.head?, Option.some.injEq] at h1
          simp only [List.tail, List.head?, Option.some.injEq] at h2
          subst h1
          subst h2
          exact (List.chain'_cons.mp hc).1

theorem clockRunAux_head (fuel : Nat) (streams : List (List MarketEvent))
    (x : MarketEvent) (h : (clockRunAux fuel streams).head? = some x) :
    ∃ j, pickMin streams = some (j, x) := by
  cases fuel with
  | zero => simp [clockRunAux] at h
  | succ f =>
      rcases hadv : advance streams with _ | ⟨e, rest⟩
      · simp [clockRunAux, hadv] at h
      · simp only [clockRunAux, hadv, List.head?, Option.some.injEq] at h
        subst h
        unfold advance at hadv
        rcases hq : pickMin streams with _ | ⟨j, e0⟩
        · rw [hq] at hadv
          simp at hadv
        · rw [hq] at hadv
          simp only [Option.map_some', Option.some.injEq,
            Prod.mk.injEq] at hadv
          obtain ⟨h1, h2⟩ := hadv
          subst h1
          exact ⟨j, rfl⟩

theorem clockRunAux_chain :
    ∀ (fuel : Nat) (streams : List (List MarketEvent)),
      SortedStreams streams →
      List.Chain' (fun a b => a.ts ≤ b.ts) (clockRunAux fuel streams) := by
  intro fuel
  induction fuel with
  | zero =>
      intro streams _
      simp [clockRunAux]
  | succ f ih =>
      intro streams hs
      rcases hadv : advance streams with _ | ⟨e, rest⟩
      · simp [clockRunAux, hadv]
      · simp only [clockRunAux, hadv]
        have hp : ∃ j, pickMin streams = some (j, e) ∧
            rest = popAt streams j := by
          unfold advance at hadv
          rcases hq : pickMin streams with _ | ⟨j, e0⟩
          · rw [hq] at hadv
            simp at hadv
          · rw [hq] at hadv
            simp only [Option.map_some', Option.some.injEq,
              Prod.mk.injEq] at hadv
            obtain ⟨h1, h2⟩ := hadv
            subst h1
            exact ⟨j, rfl, h2.symm⟩
        obtain ⟨j, hpj, hrest⟩ := hp
        subst hrest
        rw [List.chain'_cons']
        refine ⟨?_, ih (popAt streams j) (popAt_sorted streams j hs)⟩
        intro y hy
        obtain ⟨j2, hpick2⟩ := clockRunAux_head f (popAt streams j) y
          (Option.mem_def.mp hy)
        obtain ⟨l2, hget2, hhead2⟩ := pickMin_mem (popAt streams j) j2 y
          hpick2
        by_cases hjj : j2 = j
        · subst hjj
          obtain ⟨l0, hget0, hhead0⟩ := pickMin_mem streams j2 e hpj
          have hget2b : (popAt streams j2).get? j2 = some l0.tail :=
            popAt_get?_eq streams j2 l0 hget0
          rw [hget2b, Option.some.injEq] at hget2
          have hch : List.Chain' (fun a b => a.ts ≤ b.ts) l0 :=
            hs l0 (List.get?_mem hget0)
          refine chain'_head_tail hch hhead0 ?_
          rw [hget2]
          exact hhead2
        · have hget3 : streams.get? j2 = some l2 := by
            rw [← popAt_get?_ne streams j j2 (fun hh => hjj hh.symm)]
            exact hget2
          exact pickMin_le streams j e hpj j2 l2 y hget3 hhead2

/-- C2: with every registered source non-decreasing in timestamp, the
event sequence emitted by the Clock is monotonically non-decreasing in
timestamp; each advance pops a stream head (respecting insertion order
within a stream) of minimal timestamp, and among streams whose heads tie
at that timestamp the one with the least registration index wins. -/
theorem clock_emits_ordered (streams : List (List MarketEvent))
    (hs : SortedStreams streams) :
    List.Chain' (fun a b => a.ts ≤ b.ts) (clockRun streams) ∧
    (∀ i e, pickMin streams = some (i, e) →
      (∃ l, streams.get? i = some l ∧ l.head? = some e) ∧
      (∀ j l e2, streams.get? j = some l → l.head? = some e2 →
        e.ts ≤ e2.ts) ∧
      (∀ j l e2, j < i → streams.get? j = some l → l.head? = some e2 →
        e.ts < e2.ts)) := by
  refine ⟨clockRunAux_chain (totalLen streams) streams hs, fun i e hp =>
    ⟨pickMin_mem streams i e hp, pickMin_le streams i e hp,
      pickMin_tie streams i e hp⟩⟩

/-- Witness for C2 at two concrete sorted streams with a timestamp tie. -/
theorem clock_emits_ordered_witness :
    List.Chain' (fun a b => a.ts ≤ b.ts) (clockRun sampleStreams) ∧
    (∃ l, sampleStreams.get? 0 = some l ∧
      l.head? = some sampleEvent) := by
  have hsort : SortedStreams sampleStreams := by
    intro l hl
    simp only [sampleStreams, List.mem_cons, List.not_mem_nil,
      or_false] at hl
    rcases hl with rfl | rfl
    · exact List.chain'_pair.mpr (by decide)
    · exact List.chain'_pair.mpr (by decide)
  have h := clock_emits_ordered sampleStreams hsort
  refine ⟨h.1, ?_⟩
  have hp : pickMin sampleStreams = some (0, sampleEvent) := by decide
  exact (h.2 0 sampleEvent hp).1

end Backtest
